import Mathlib

/-!
# goxcwd: the deepest-child search over a process snapshot

A shallow embedding of `main.go`: the denylist, `isProcAllowed`, `must`,
`dbgprint`, the two `lo.GroupBy` indexes built in
`getCurrentWorkingDirectory`, and the recursive `findDeepestChild`.

Modelling conventions.

* A `procfs.Proc` is a record holding its PID and, for each of the fallible
  procfs queries (`Stat`, `Executable`, `CmdLine`, `Cwd`), the outcome the
  query has on the captured snapshot: either a value or a Go `error`. A query
  gives the same outcome each time it is made during one run.
* A Go panic is an `Abort.panicErr` or `Abort.indexOutOfRange`; Go recursion is bounded by a fuel argument
  and running out of fuel is the distinct outcome `Abort.outOfFuel`.
* A Go `map[int]procfs.Procs` is only ever read through `m[k]`, which yields
  the nil slice for an absent key, so it is a total function `Int → List Proc`.
* `os.Stderr` is the list of trace lines written so far; the `DEBUG`
  environment variable is the boolean `debug`.
* PIDs are Go `int`, here `Int`. The `depth` argument starts at `0` and only
  grows by one per recursive call, and the returned `int64` depth starts at
  `0` and only grows by one per level, so both are `Nat`.
-/

namespace Goxcwd

/-! ## Values, errors and panics -/

/-- A Go `error` value, identified by its message. -/
abbrev GoError := String

/-- The ways a call does not return: a Go panic, or the fuel bound of the model. -/
inductive Abort where
  | panicErr (e : GoError)
  | indexOutOfRange (index len : Nat)
  | outOfFuel
  deriving DecidableEq

/-- The part of `procfs.ProcStat` the program reads. -/
structure ProcStat where
  PPID : Int
  deriving DecidableEq

/-- A `procfs.Proc` on a captured snapshot: the PID and the outcome of each query. -/
structure Proc where
  PID : Int
  Stat : Except GoError ProcStat
  Executable : Except GoError String
  CmdLine : Except GoError (List String)
  Cwd : Except GoError String

/-- A Go `map[int]procfs.Procs`, read through `m[k]` (nil slice for an absent key). -/
abbrev ProcMap := Int → List Proc

/-- One formatted line written to the diagnostic stream. -/
inductive TraceLine where
  | windowPid (pid : Nat)
  | visit (indent : String) (pid : Int) (allowed : Bool) (exe cmdline cwd : String)
  | result (depth : Nat) (pid : Int)
  deriving DecidableEq

/-- The diagnostic stream: the lines written so far. -/
abbrev Stderr := List TraceLine

/-! ## The program -/

/-- The denylist `ignoreExecutableList`. -/
def ignoreExecutableList : List String := ["gopls", "", "."]

/-- The generic `must`: panics with the error, otherwise yields the value. -/
def must {T : Type} (x : Except GoError T) : Except Abort T :=
  match x with
  | .ok v => .ok v
  | .error e => .error (.panicErr e)

/-- The standard-library `path.Base`: "." for the empty path, trailing slashes
stripped, the part after the last slash kept, "/" when nothing is left. -/
def pathBase (path : String) : String :=
  if path = "" then "."
  else
    let stripped := (path.data.reverse.dropWhile (fun c => c == '/')).reverse
    let last := (stripped.reverse.takeWhile (fun c => c != '/')).reverse
    if last = [] then "/" else String.mk last

/-- The function `isProcAllowed`: the executable's basename is not on the denylist. -/
def isProcAllowed (p : Proc) : Except Abort Bool := do
  let exe ← must p.Executable
  let baseExeName := pathBase exe
  pure (!(ignoreExecutableList.contains baseExeName))

/-- The function `dbgprint`: writes the line only when `DEBUG` is non-empty. -/
def dbgprint (debug : Bool) (w : Stderr) (line : TraceLine) : Stderr :=
  if debug then w ++ [line] else w

/-- The index expression `xs[0]` on a slice: panics on the empty slice. -/
def index0 (xs : List Proc) : Except Abort Proc :=
  match xs with
  | [] => .error (.indexOutOfRange 0 0)
  | x :: _ => .ok x

/-- The library `lo.GroupBy`: walks the collection in order and appends each
item to the slice stored under its key. -/
def GroupBy (collection : List Proc) (iteratee : Proc → Except Abort Int) :
    Except Abort ProcMap :=
  collection.foldlM
    (fun result item => do
      let key ← iteratee item
      pure (Function.update result key (result key ++ [item])))
    (fun _ => [])

/-- The key of the parent-PID index: `must(p.Stat()).PPID`. -/
def ppidKey (p : Proc) : Except Abort Int := do
  let s ← must p.Stat
  pure s.PPID

/-- The key of the PID index: `p.PID`. -/
def pidKey (p : Proc) : Except Abort Int := pure p.PID

/-- The body of the `for _, child := range children` loop of `findDeepestChild`,
with the recursive call passed in as `recur`. -/
def forChildren (procsByPID : ProcMap)
    (recur : Int → Stderr → Except Abort (Int × Nat × Stderr)) :
    List Proc → Int → Nat → Stderr → Except Abort (Int × Nat × Stderr)
  | [], longestDescPID, longestDescDepth, w => pure (longestDescPID, longestDescDepth, w)
  | child :: rest, longestDescPID, longestDescDepth, w => do
    let (descPID, descDepth, w) ← recur child.PID w
    let dp ← index0 (procsByPID descPID)
    if descDepth ≥ longestDescDepth then
      let allowed ← isProcAllowed dp
      if allowed then
        forChildren procsByPID recur rest descPID descDepth w
      else
        forChildren procsByPID recur rest longestDescPID longestDescDepth w
    else
      forChildren procsByPID recur rest longestDescPID longestDescDepth w

/-- The function `findDeepestChild`. The arguments of the `dbgprint` call are
evaluated before the call, whatever `DEBUG` holds. -/
def findDeepestChild (debug : Bool) (procsByPPID procsByPID : ProcMap) :
    Nat → Int → Nat → Stderr → Except Abort (Int × Nat × Stderr)
  | 0, _, _, _ => .error .outOfFuel
  | fuel + 1, pid, depth, w => do
    let indent := String.join (List.replicate depth "    ")
    let p ← index0 (procsByPID pid)
    let a1 ← isProcAllowed p
    let a2 ← must p.Executable
    let a3 ← must p.CmdLine
    let a4 ← must p.Cwd
    let w := dbgprint debug w (.visit indent pid a1 a2 (" ".intercalate a3) a4)
    let children := procsByPPID pid
    if children.length = 0 then
      pure (pid, 0, w)
    else
      let (longestDescPID, longestDescDepth, w) ←
        forChildren procsByPID
          (fun childPID w => findDeepestChild debug procsByPPID procsByPID fuel childPID (depth + 1) w)
          children pid 0 w
      pure (longestDescPID, longestDescDepth + 1, w)

/-- The function `getCurrentWorkingDirectory`, with the outcomes of `getWindowPID`
and `procfs.AllProcs` as arguments. An `Except.ok` holds the returned
`(string, error)` pair as an `Except GoError String`. -/
def getCurrentWorkingDirectory (debug : Bool) (fuel : Nat)
    (windowPID : Except GoError Nat) (allProcs : Except GoError (List Proc)) (w : Stderr) :
    Except Abort (Except GoError String × Stderr) :=
  match windowPID with
  | .error e => pure (.error ("failed to get window PID: " ++ e), w)
  | .ok pid => do
    let w := dbgprint debug w (.windowPid pid)
    match allProcs with
    | .error e => pure (.error ("failed to get all processes: " ++ e), w)
    | .ok procs => do
      let procsByPPID ← GroupBy procs ppidKey
      let procsByPID ← GroupBy procs pidKey
      let (deepestChildPID, depth, w) ← findDeepestChild debug procsByPPID procsByPID fuel pid 0 w
      let w := dbgprint debug w (.result depth deepestChildPID)
      let p ← index0 (procsByPID deepestChildPID)
      pure (p.Cwd, w)

/-! ## The vocabulary of the specification -/

/-- The snapshot records `c` as a child of `a`: a record with PID `c` has parent PID `a`. -/
def IsChild (procs : List Proc) (a c : Int) : Prop :=
  ∃ p ∈ procs, p.PID = c ∧ ∃ s, p.Stat = .ok s ∧ s.PPID = a

/-- The process `c` is reached from `a` along `n` parent-to-child edges. -/
inductive Reach (procs : List Proc) : Int → Int → Nat → Prop
  | here (a : Int) : Reach procs a a 0
  | down {a b c : Int} {n : Nat} :
      IsChild procs a b → Reach procs b c n → Reach procs a c (n + 1)

/-- Every procfs query of the record succeeds. -/
def Resolvable (p : Proc) : Prop :=
  (∃ s, p.Stat = .ok s) ∧ (∃ e, p.Executable = .ok e) ∧
    (∃ c, p.CmdLine = .ok c) ∧ (∃ d, p.Cwd = .ok d)

/-- No process is its own strict descendant. -/
def Acyclic (procs : List Proc) : Prop := ∀ a n, Reach procs a a n → n = 0

/-- A well-formed snapshot: unique PIDs, every field resolvable, acyclic parent links. -/
structure WellFormed (procs : List Proc) : Prop where
  uniquePIDs : (procs.map (fun p => p.PID)).Nodup
  resolvable : ∀ p ∈ procs, Resolvable p
  acyclic : Acyclic procs

/-- The process with this PID passes `isProcAllowed`. -/
def Allowed (procs : List Proc) (x : Int) : Prop :=
  ∃ p ∈ procs, p.PID = x ∧ isProcAllowed p = .ok true

/-- The process with this PID is rejected by `isProcAllowed`. -/
def Denylisted (procs : List Proc) (x : Int) : Prop :=
  ∃ p ∈ procs, p.PID = x ∧ isProcAllowed p = .ok false

/-- The PIDs of the children of `x`, in snapshot enumeration order. -/
def childrenOf (procs : List Proc) (x : Int) : List Int :=
  (procs.filter (fun p =>
    match p.Stat with
    | .ok s => decide (s.PPID = x)
    | .error _ => false)).map (fun p => p.PID)

/-- Depth-first pre-order walk from `x` at depth `k`, children in enumeration
order: every process met, paired with its depth. -/
def preorder (kids : Int → List Int) : Nat → Int → Nat → List (Int × Nat)
  | 0, _, _ => []
  | fuel + 1, x, k => (x, k) :: ((kids x).map (fun c => preorder kids fuel c (k + 1))).flatten

/-- The depth-first enumeration of the tree under `root`, with depths counted from `root`. -/
def dfsOrder (procs : List Proc) (root : Int) : List (Int × Nat) :=
  preorder (childrenOf procs) (procs.length + 1) root 0

/-- In the enumeration `l`, `(pid, h)` is the last entry of greatest depth. -/
def LastDeepest (l : List (Int × Nat)) (pid : Int) (h : Nat) : Prop :=
  ∃ l1 l2, l = l1 ++ (pid, h) :: l2 ∧ (∀ e ∈ l1, e.2 ≤ h) ∧ (∀ e ∈ l2, e.2 < h)

/-! ## A trace-free rendering of the search, used in the proofs -/

/-- The verdict of `isProcAllowed` on the record the PID index holds for `x`. -/
def allowedIn (procsByPID : ProcMap) (x : Int) : Bool :=
  match procsByPID x with
  | [] => false
  | p :: _ =>
    match isProcAllowed p with
    | .ok b => b
    | .error _ => false

/-- The loop of `findDeepestChild` over child PIDs, without trace and panics. -/
def coreLoop (al : Int → Bool) (rc : Int → Option (Int × Nat)) :
    List Int → Int → Nat → Option (Int × Nat)
  | [], lp, ld => some (lp, ld)
  | c :: rest, lp, ld =>
    match rc c with
    | none => none
    | some (dp, dd) =>
      if ld ≤ dd ∧ al dp = true then coreLoop al rc rest dp dd
      else coreLoop al rc rest lp ld

/-- The search of `findDeepestChild` over child PIDs, without trace and panics;
`none` when the fuel runs out. -/
def core (kids : Int → List Int) (al : Int → Bool) : Nat → Int → Option (Int × Nat)
  | 0, _ => none
  | fuel + 1, x =>
    if kids x = [] then some (x, 0)
    else (coreLoop al (core kids al fuel) (kids x) x 0).map (fun r => (r.1, r.2 + 1))

/-- The node `d` lies on the unique deepest path below `root`: one process `leaf` is
farther from `root` than every other, and `d` is a strict descendant of `root` on the
way to it. -/
def OnUniqueDeepestPath (procs : List Proc) (root d : Int) : Prop :=
  ∃ leaf h, Reach procs root leaf h ∧
    (∀ y n, Reach procs root y n → n ≤ h ∧ (n = h → y = leaf)) ∧
    ∃ j k, Reach procs root d (j + 1) ∧ Reach procs d leaf k

/-- A decidable sufficient test for `WellFormed`: unique PIDs, every query
resolves, and every parent PID is smaller than the PID. -/
def checkSnapshot (procs : List Proc) : Bool :=
  decide ((procs.map (fun p => p.PID)).Nodup) &&
    procs.all (fun p =>
      match p.Stat, p.Executable, p.CmdLine, p.Cwd with
      | .ok s, .ok _, .ok _, .ok _ => decide (s.PPID < p.PID)
      | _, _, _, _ => false)

/-- A record all of whose queries resolve. -/
def mkProc (pid ppid : Int) (exe : String) : Proc :=
  { PID := pid, Stat := .ok ⟨ppid⟩, Executable := .ok exe, CmdLine := .ok [exe],
    Cwd := .ok "/home/user" }

/-- The tree `1 → {2, 3}`, `2 → {4}`, `3 → {}`, nothing denylisted. -/
def snapTree : List Proc :=
  [mkProc 1 0 "/usr/bin/xterm", mkProc 2 1 "/bin/bash", mkProc 3 1 "/bin/zsh",
   mkProc 4 2 "/usr/bin/vim"]

/-- The tree `1 → {2, 3}`, `2 → {4}`, `3 → {5}`, with `5` running `gopls`. -/
def snapShadow : List Proc :=
  [mkProc 1 0 "/usr/bin/xterm", mkProc 2 1 "/bin/bash", mkProc 3 1 "/bin/zsh",
   mkProc 4 2 "/usr/bin/vim", mkProc 5 3 "/usr/bin/gopls"]

/-- The chain `1 → 2`, with `2` running `gopls`. -/
def snapOnlyGopls : List Proc :=
  [mkProc 1 0 "/usr/bin/xterm", mkProc 2 1 "/usr/bin/gopls"]

/-- The chain `1 → 2 → 4`, with `2` running `gopls`. -/
def snapMiddle : List Proc :=
  [mkProc 1 0 "/usr/bin/xterm", mkProc 2 1 "/usr/bin/gopls", mkProc 4 2 "/usr/bin/vim"]

/-- The chain `1 → 2` where the working directory of `2` cannot be read. -/
def snapNoCwd : List Proc :=
  [mkProc 1 0 "/usr/bin/xterm",
   { PID := 2, Stat := .ok ⟨1⟩, Executable := .ok "/bin/bash", CmdLine := .ok ["/bin/bash"],
     Cwd := .error "readlink /proc/2/cwd: permission denied" }]

/-- The chain `1 → 2` where every query of `2` resolves. -/
def snapCwd : List Proc :=
  [mkProc 1 0 "/usr/bin/xterm", mkProc 2 1 "/bin/bash"]

/-- A lone process `9` whose working directory cannot be read. -/
def snapLone : List Proc :=
  [{ PID := 9, Stat := .ok ⟨1⟩, Executable := .ok "/bin/bash", CmdLine := .ok ["/bin/bash"],
     Cwd := .error "readlink /proc/9/cwd: permission denied" }]

/-- A lone process `9` running `gopls`, every query resolving. -/
def snapLoneGopls : List Proc := [mkProc 9 1 "/usr/bin/gopls"]

/-- A record whose executable path cannot be read. -/
def procNoExe : Proc :=
  { PID := 3, Stat := .ok ⟨1⟩, Executable := .error "readlink /proc/3/exe: permission denied",
    CmdLine := .ok [], Cwd := .ok "/" }

/-- A record whose executable path resolves to the empty string. -/
def procEmptyExe : Proc :=
  { PID := 3, Stat := .ok ⟨1⟩, Executable := .ok "", CmdLine := .ok [], Cwd := .ok "/" }

/-- The first of two records with PID `7`. -/
def dupFirst : Proc :=
  { PID := 7, Stat := .ok ⟨1⟩, Executable := .ok "/bin/bash", CmdLine := .ok ["/bin/bash"],
    Cwd := .ok "/first" }

/-- The second of two records with PID `7`. -/
def dupLast : Proc :=
  { PID := 7, Stat := .ok ⟨1⟩, Executable := .ok "/bin/bash", CmdLine := .ok ["/bin/bash"],
    Cwd := .ok "/last" }

/-- A snapshot listing PID `7` twice, with different working directories. -/
def snapDup : List Proc := [dupFirst, dupLast]

/-- The parent-PID index of a snapshot whose `Stat` queries resolve, as `lo.GroupBy` builds it. -/
def byPPID (procs : List Proc) : ProcMap :=
  fun k => procs.filter (fun p =>
    match p.Stat with
    | .ok s => decide (s.PPID = k)
    | .error _ => false)

/-- The PID index of a snapshot, as `lo.GroupBy` builds it. -/
def byPID (procs : List Proc) : ProcMap :=
  fun k => procs.filter (fun p => decide (p.PID = k))

/-! ## The indexes -/

/-- The fold inside `lo.GroupBy`: each key ends up with what it held, followed by the
items of that key in order. -/
theorem groupBy_fold (procs : List Proc) (it : Proc → Except Abort Int) (key : Proc → Int)
    (h : ∀ p ∈ procs, it p = .ok (key p)) (acc : ProcMap) :
    procs.foldlM
      (fun result item => do
        let key ← it item
        pure (Function.update result key (result key ++ [item]))) acc
      = .ok (fun k => acc k ++ procs.filter (fun p => decide (key p = k))) := by
  induction procs generalizing acc with
  | nil => simp [pure, Except.pure]
  | cons p rest ih =>
    have hp : it p = .ok (key p) := h p (List.mem_cons_self _ _)
    have hrest : ∀ q ∈ rest, it q = .ok (key q) := fun q hq => h q (List.mem_cons_of_mem _ hq)
    rw [List.foldlM_cons, hp]
    show (rest.foldlM _ (Function.update acc (key p) (acc (key p) ++ [p]))) = _
    rw [ih hrest]
    congr 1
    funext k
    by_cases hk : key p = k
    · subst hk
      simp [List.filter_cons]
    · have hk2 : k ≠ key p := fun e => hk e.symm
      simp [List.filter_cons, hk, Function.update_noteq hk2]

/-- The index built by `lo.GroupBy` holds under each key the items of that key, in order. -/
theorem GroupBy_eq_filter (procs : List Proc) (it : Proc → Except Abort Int) (key : Proc → Int)
    (h : ∀ p ∈ procs, it p = .ok (key p)) :
    GroupBy procs it = .ok (fun k => procs.filter (fun p => decide (key p = k))) := by
  unfold GroupBy
  rw [groupBy_fold procs it key h]
  simp

/-- The PID index holds, under each key, the records with that PID in snapshot order. -/
theorem procsByPID_eq (procs : List Proc) :
    GroupBy procs pidKey = .ok (fun k => procs.filter (fun p => decide (p.PID = k))) :=
  GroupBy_eq_filter procs pidKey (fun p => p.PID) (fun _ _ => rfl)

/-- The parent-PID key of a record whose `Stat` query resolves. -/
theorem ppidKey_ok {p : Proc} {s : ProcStat} (h : p.Stat = .ok s) : ppidKey p = .ok s.PPID := by
  simp [ppidKey, h, must, bind, Except.bind, pure, Except.pure]

/-- The parent-PID index holds, under each key, the records with that parent PID in
snapshot order. -/
theorem procsByPPID_eq (procs : List Proc) (hres : ∀ p ∈ procs, ∃ s, p.Stat = .ok s) :
    GroupBy procs ppidKey = .ok (fun k => procs.filter (fun p =>
      match p.Stat with
      | .ok s => decide (s.PPID = k)
      | .error _ => false)) := by
  rw [GroupBy_eq_filter procs ppidKey
    (fun p => match p.Stat with | .ok s => s.PPID | .error _ => 0)]
  · congr 1
    funext k
    apply List.filter_congr
    intro p hp
    obtain ⟨s, hs⟩ := hres p hp
    simp [hs]
  · intro p hp
    obtain ⟨s, hs⟩ := hres p hp
    rw [ppidKey_ok hs, hs]

/-- The children listed for `a` are the processes the snapshot records as children of `a`. -/
theorem mem_childrenOf {procs : List Proc} {a c : Int} :
    c ∈ childrenOf procs a ↔ IsChild procs a c := by
  unfold childrenOf IsChild
  simp only [List.mem_map, List.mem_filter]
  constructor
  · rintro ⟨p, ⟨hp, hk⟩, rfl⟩
    refine ⟨p, hp, rfl, ?_⟩
    cases hs : p.Stat with
    | ok s => rw [hs] at hk; exact ⟨s, rfl, by simpa using hk⟩
    | error e => rw [hs] at hk; simp at hk
  · rintro ⟨p, hp, rfl, s, hs, rfl⟩
    exact ⟨p, ⟨hp, by simp [hs]⟩, rfl⟩

/-- With unique PIDs, the PID index holds exactly one record under the PID of a record. -/
theorem filter_pid_of_nodup {procs : List Proc} (hnd : (procs.map (fun p => p.PID)).Nodup)
    {p : Proc} (hp : p ∈ procs) :
    procs.filter (fun q => decide (q.PID = p.PID)) = [p] := by
  induction procs with
  | nil => simp at hp
  | cons q rest ih =>
    simp only [List.map_cons, List.nodup_cons, List.mem_map, not_exists, not_and] at hnd
    rcases List.mem_cons.mp hp with rfl | hrest
    · have : rest.filter (fun q => decide (q.PID = p.PID)) = [] := by
        rw [List.filter_eq_nil_iff]
        intro r hr
        simpa using hnd.1 r hr
      simp [List.filter_cons, this]
    · have hne : ¬ q.PID = p.PID := fun e => hnd.1 p hrest e.symm
      simp [List.filter_cons, hne, ih hnd.2 hrest]

/-- The verdict of `isProcAllowed` on a record whose executable path resolves. -/
theorem isProcAllowed_ok {p : Proc} {e : String} (h : p.Executable = .ok e) :
    isProcAllowed p = .ok (!(ignoreExecutableList.contains (pathBase e))) := by
  simp [isProcAllowed, h, must, bind, Except.bind, pure, Except.pure]

/-- The loop of `findDeepestChild` returns what the trace-free loop returns, when the
recursive calls do and every record looked up has a resolvable executable path. -/
theorem forChildren_of_coreLoop (I : ProcMap)
    (htr : ∀ x p rest, I x = p :: rest → ∃ e, p.Executable = .ok e)
    (recur : Int → Stderr → Except Abort (Int × Nat × Stderr))
    (rc : Int → Option (Int × Nat)) (cs : List Proc)
    (hrec : ∀ c ∈ cs, ∀ r, rc c.PID = some r →
      I r.1 ≠ [] ∧ ∀ w, ∃ w', recur c.PID w = .ok (r.1, r.2, w'))
    (lp : Int) (ld : Nat) (hlp : I lp ≠ []) (r : Int × Nat)
    (h : coreLoop (allowedIn I) rc (cs.map (fun p => p.PID)) lp ld = some r) :
    I r.1 ≠ [] ∧ ∀ w, ∃ w', forChildren I recur cs lp ld w = .ok (r.1, r.2, w') := by
  induction cs generalizing lp ld with
  | nil =>
    simp only [List.map_nil, coreLoop, Option.some.injEq] at h
    subst h
    exact ⟨hlp, fun w => ⟨w, rfl⟩⟩
  | cons c rest ih =>
    have hrest : ∀ c' ∈ rest, ∀ r, rc c'.PID = some r →
        I r.1 ≠ [] ∧ ∀ w, ∃ w', recur c'.PID w = .ok (r.1, r.2, w') :=
      fun c' hc' => hrec c' (List.mem_cons_of_mem _ hc')
    simp only [List.map_cons, coreLoop] at h
    cases hc : rc c.PID with
    | none => rw [hc] at h; simp at h
    | some res =>
      obtain ⟨dp, dd⟩ := res
      rw [hc] at h
      simp only at h
      obtain ⟨hdp, hrun⟩ := hrec c (List.mem_cons_self _ _) (dp, dd) hc
      simp only at hdp hrun
      cases hI : I dp with
      | nil => exact absurd hI hdp
      | cons q qs =>
        obtain ⟨e, he⟩ := htr dp q qs hI
        have hal : allowedIn I dp = !(ignoreExecutableList.contains (pathBase e)) := by
          simp [allowedIn, hI, isProcAllowed_ok he]
        by_cases hcond : ld ≤ dd ∧ allowedIn I dp = true
        · rw [if_pos hcond] at h
          obtain ⟨hr1, hr2⟩ := ih hrest dp dd hdp h
          refine ⟨hr1, fun w => ?_⟩
          obtain ⟨w1, hw1⟩ := hrun w
          obtain ⟨w2, hw2⟩ := hr2 w1
          refine ⟨w2, ?_⟩
          have hb : (!(ignoreExecutableList.contains (pathBase e))) = true := by
            rw [← hal]; exact hcond.2
          simp only [forChildren, hw1, bind, Except.bind, hI, index0, ge_iff_le, hcond.1,
            if_true, isProcAllowed_ok he, hb]
          exact hw2
        · rw [if_neg hcond] at h
          obtain ⟨hr1, hr2⟩ := ih hrest lp ld hlp h
          refine ⟨hr1, fun w => ?_⟩
          obtain ⟨w1, hw1⟩ := hrun w
          obtain ⟨w2, hw2⟩ := hr2 w1
          refine ⟨w2, ?_⟩
          by_cases hle : ld ≤ dd
          · have hb : (!(ignoreExecutableList.contains (pathBase e))) = false := by
              rw [← hal]
              cases hx : allowedIn I dp with
              | true => exact absurd ⟨hle, hx⟩ hcond
              | false => rfl
            simp only [forChildren, hw1, bind, Except.bind, hI, index0, ge_iff_le, hle,
              if_true, isProcAllowed_ok he, hb]
            exact hw2
          · simp only [forChildren, hw1, bind, Except.bind, hI, index0, ge_iff_le, hle,
              if_false]
            exact hw2

/-- The function `findDeepestChild` returns what the trace-free search returns, when every
record in the PID index is resolvable and every child is in the PID index. -/
theorem findDeepestChild_of_core (debug : Bool) (P I : ProcMap)
    (htr : ∀ x p rest, I x = p :: rest →
      (∃ e, p.Executable = .ok e) ∧ (∃ c, p.CmdLine = .ok c) ∧ (∃ d, p.Cwd = .ok d))
    (hch : ∀ k, ∀ c ∈ P k, I c.PID ≠ []) :
    ∀ (fuel : Nat) (x : Int), I x ≠ [] → ∀ r,
      core (fun k => (P k).map (fun p => p.PID)) (allowedIn I) fuel x = some r →
      I r.1 ≠ [] ∧ ∀ depth w, ∃ w',
        findDeepestChild debug P I fuel x depth w = .ok (r.1, r.2, w') := by
  intro fuel
  induction fuel with
  | zero => intro x _ r h; simp [core] at h
  | succ fuel ih =>
    intro x hx r h
    cases hI : I x with
    | nil => exact absurd hI hx
    | cons p ps =>
      obtain ⟨⟨e, he⟩, ⟨cl, hcl⟩, ⟨d, hd⟩⟩ := htr x p ps hI
      simp only [core] at h
      by_cases hk : P x = []
      · simp only [hk, List.map_nil, if_true, Option.some.injEq] at h
        subst h
        refine ⟨hx, fun depth w => ?_⟩
        simp [findDeepestChild, hI, index0, bind, Except.bind, isProcAllowed_ok he, he, hcl, hd,
          must, hk, pure, Except.pure]
      · have hk2 : ¬ (P x).map (fun p => p.PID) = [] := by simpa using hk
        rw [if_neg hk2] at h
        cases hl : coreLoop (allowedIn I)
            (core (fun k => (P k).map (fun p => p.PID)) (allowedIn I) fuel)
            ((P x).map (fun p => p.PID)) x 0 with
        | none => rw [hl] at h; simp at h
        | some r0 =>
          rw [hl] at h
          simp only [Option.map_some', Option.some.injEq] at h
          subst h
          refine ⟨?_, fun depth w => ?_⟩
          · exact (forChildren_of_coreLoop I (fun x p rest h => (htr x p rest h).1)
              (fun childPID w => findDeepestChild debug P I fuel childPID 0 w)
              _ (P x)
              (fun c hc r hr => ⟨(ih c.PID (hch x c hc) r hr).1,
                fun w => (ih c.PID (hch x c hc) r hr).2 0 w⟩)
              x 0 hx r0 hl).1
          · have hlen : ¬ (P x).length = 0 := by simpa using hk
            obtain ⟨w2, hw2⟩ := (forChildren_of_coreLoop I (fun x p rest h => (htr x p rest h).1)
              (fun childPID w => findDeepestChild debug P I fuel childPID (depth + 1) w)
              _ (P x)
              (fun c hc r hr => ⟨(ih c.PID (hch x c hc) r hr).1,
                fun w => (ih c.PID (hch x c hc) r hr).2 (depth + 1) w⟩)
              x 0 hx r0 hl).2
              (dbgprint debug w (.visit (String.join (List.replicate depth "    ")) x
                (!(ignoreExecutableList.contains (pathBase e))) e (" ".intercalate cl) d))
            refine ⟨w2, ?_⟩
            simp only [findDeepestChild, hI, index0, bind, Except.bind, isProcAllowed_ok he, he,
              hcl, hd, must, hlen, if_false, hw2, pure, Except.pure]

/-! ## Paths in the snapshot -/

theorem Reach.snoc {procs : List Proc} {a b c : Int} {n : Nat}
    (h : Reach procs a b n) (hc : IsChild procs b c) : Reach procs a c (n + 1) := by
  induction h with
  | here a => exact .down hc (.here c)
  | down hab _ ih => exact .down hab (ih hc)

theorem Reach.append {procs : List Proc} {a b c : Int} {n m : Nat}
    (h : Reach procs a b n) (h2 : Reach procs b c m) : Reach procs a c (n + m) := by
  induction h with
  | here a => simpa using h2
  | @down a b' c' n hab _ ih =>
    have := Reach.down hab (ih h2)
    rwa [show n + 1 + m = n + m + 1 by omega]

theorem Reach.zero_eq {procs : List Proc} {a b : Int} (h : Reach procs a b 0) : a = b := by
  cases h; rfl

theorem Reach.succ_inv {procs : List Proc} {a c : Int} {n : Nat}
    (h : Reach procs a c (n + 1)) : ∃ b, IsChild procs a b ∧ Reach procs b c n := by
  cases h with
  | down hab hbc => exact ⟨_, hab, hbc⟩

/-- Parent PIDs smaller than the PID on every record: a sufficient test for acyclicity. -/
theorem acyclic_of_ppid_lt {procs : List Proc}
    (h : ∀ p ∈ procs, ∀ s, p.Stat = .ok s → s.PPID < p.PID) : Acyclic procs := by
  have key : ∀ a b n, Reach procs a b n → a + n ≤ b := by
    intro a b n hr
    induction hr with
    | here a => simp
    | @down a b c n hab _ ih =>
      obtain ⟨p, hp, rfl, s, hs, rfl⟩ := hab
      have := h p hp s hs
      push_cast
      omega
  intro a n hr
  have := key a a n hr
  omega

/-- In an acyclic snapshot a path visits pairwise distinct records, so it is
no longer than the snapshot. -/
theorem Reach.length_le {procs : List Proc} (hac : Acyclic procs) {a b : Int} {n : Nat}
    (h : Reach procs a b n) : n ≤ procs.length := by
  have key : ∀ a b n, Reach procs a b n →
      ∃ l : List Int, l.length = n ∧ l.Nodup ∧ (∀ v ∈ l, v ∈ procs.map (fun p => p.PID)) ∧
        (∀ v ∈ l, ∃ k, Reach procs a v (k + 1)) := by
    intro a b n hr
    induction hr with
    | here a => exact ⟨[], rfl, List.nodup_nil, by simp, by simp⟩
    | @down a b c n hab hbc ih =>
      obtain ⟨l, hlen, hnd, hin, hre⟩ := ih
      refine ⟨b :: l, by simp [hlen], ?_, ?_, ?_⟩
      · refine List.nodup_cons.mpr ⟨fun hmem => ?_, hnd⟩
        obtain ⟨k, hk⟩ := hre b hmem
        have := hac b (k + 1) hk
        omega
      · intro v hv
        rcases List.mem_cons.mp hv with rfl | hv
        · obtain ⟨p, hp, hpid, _⟩ := hab
          exact List.mem_map.mpr ⟨p, hp, hpid⟩
        · exact hin v hv
      · intro v hv
        rcases List.mem_cons.mp hv with rfl | hv
        · exact ⟨0, .down hab (.here _)⟩
        · obtain ⟨k, hk⟩ := hre v hv
          exact ⟨k + 1, .down hab hk⟩
  obtain ⟨l, hlen, hnd, hin, _⟩ := key a b n h
  have := (List.subperm_of_subset hnd hin).length_le
  simpa [hlen] using this

/-- An acyclic snapshot has a rank that drops along every parent-to-child edge. -/
theorem exists_rank {procs : List Proc} (hac : Acyclic procs) :
    ∃ rank : Int → Nat, (∀ a c, IsChild procs a c → rank c < rank a) ∧
      ∀ a, rank a ≤ procs.length := by
  classical
  refine ⟨fun x => Nat.findGreatest (fun n => ∃ y, Reach procs x y n) procs.length, ?_, ?_⟩
  · intro a c hac'
    have h0 : ∃ y, Reach procs c y 0 := ⟨c, .here c⟩
    obtain ⟨y, hy⟩ := Nat.findGreatest_spec (P := fun n => ∃ y, Reach procs c y n)
      (Nat.zero_le procs.length) h0
    have hstep := Reach.down hac' hy
    have hle := Reach.length_le hac hstep
    have := Nat.le_findGreatest (P := fun n => ∃ y, Reach procs a y n) hle ⟨y, hstep⟩
    exact this
  · intro a
    exact Nat.findGreatest_le _

/-! ## The loop and the recursion of the trace-free search -/

theorem coreLoop_isSome (al : Int → Bool) (rc : Int → Option (Int × Nat)) (cs : List Int)
    (lp : Int) (ld : Nat) (h : ∀ c ∈ cs, ∃ r, rc c = some r) :
    ∃ r, coreLoop al rc cs lp ld = some r := by
  induction cs generalizing lp ld with
  | nil => exact ⟨_, rfl⟩
  | cons c rest ih =>
    obtain ⟨⟨dp, dd⟩, hr⟩ := h c (List.mem_cons_self _ _)
    have hrest : ∀ c' ∈ rest, ∃ r, rc c' = some r := fun c' hc' => h c' (List.mem_cons_of_mem _ hc')
    simp only [coreLoop, hr]
    split
    · exact ih dp dd hrest
    · exact ih lp ld hrest

theorem coreLoop_defined (al : Int → Bool) (rc : Int → Option (Int × Nat)) (cs : List Int)
    (lp : Int) (ld : Nat) (r : Int × Nat) (h : coreLoop al rc cs lp ld = some r) :
    ∀ c ∈ cs, ∃ r', rc c = some r' := by
  induction cs generalizing lp ld with
  | nil => simp
  | cons c rest ih =>
    simp only [coreLoop] at h
    cases hc : rc c with
    | none => rw [hc] at h; simp at h
    | some res =>
      rw [hc] at h
      simp only at h
      intro c' hc'
      rcases List.mem_cons.mp hc' with rfl | hmem
      · exact ⟨res, hc⟩
      · split at h
        · exact ih _ _ h c' hmem
        · exact ih _ _ h c' hmem

/-- The loop keeps the running best when no child result is allowed and at least as
deep; otherwise it ends on the last allowed child result of greatest depth. -/
theorem coreLoop_spec (al : Int → Bool) (rc : Int → Option (Int × Nat)) (cs : List Int)
    (lp : Int) (ld : Nat) (p : Int) (d : Nat) (h : coreLoop al rc cs lp ld = some (p, d)) :
    ((p, d) = (lp, ld) ∧ ∀ c ∈ cs, ∀ r, rc c = some r → al r.1 = true → r.2 < ld) ∨
    (∃ l1 c l2, cs = l1 ++ c :: l2 ∧ rc c = some (p, d) ∧ al p = true ∧ ld ≤ d ∧
      (∀ c' ∈ l1, ∀ r, rc c' = some r → al r.1 = true → r.2 ≤ d) ∧
      (∀ c' ∈ l2, ∀ r, rc c' = some r → al r.1 = true → r.2 < d)) := by
  induction cs generalizing lp ld with
  | nil =>
    simp only [coreLoop, Option.some.injEq] at h
    exact Or.inl ⟨h.symm, by simp⟩
  | cons c rest ih =>
    simp only [coreLoop] at h
    cases hc : rc c with
    | none => rw [hc] at h; simp at h
    | some res =>
      obtain ⟨dp, dd⟩ := res
      rw [hc] at h
      simp only at h
      by_cases hcond : ld ≤ dd ∧ al dp = true
      · rw [if_pos hcond] at h
        rcases ih dp dd h with ⟨heq, hall⟩ | ⟨l1, c', l2, hcs, hrc, hal, hle, h1, h2⟩
        · right
          simp only [Prod.mk.injEq] at heq
          obtain ⟨rfl, rfl⟩ := heq
          exact ⟨[], c, rest, rfl, hc, hcond.2, hcond.1, by simp, hall⟩
        · right
          refine ⟨c :: l1, c', l2, by simp [hcs], hrc, hal, le_trans hcond.1 hle, ?_, h2⟩
          intro c2 hc2 r hr hral
          rcases List.mem_cons.mp hc2 with rfl | hmem
          · rw [hc] at hr
            simp only [Option.some.injEq] at hr
            subst hr
            exact hle
          · exact h1 c2 hmem r hr hral
      · rw [if_neg hcond] at h
        have hc_lt : ∀ r, rc c = some r → al r.1 = true → r.2 < ld := by
          intro r hr hral
          rw [hc] at hr
          simp only [Option.some.injEq] at hr
          subst hr
          by_contra hlt
          exact hcond ⟨by simpa using hlt, hral⟩
        rcases ih lp ld h with ⟨heq, hall⟩ | ⟨l1, c', l2, hcs, hrc, hal, hle, h1, h2⟩
        · left
          refine ⟨heq, ?_⟩
          intro c2 hc2 r hr hral
          rcases List.mem_cons.mp hc2 with rfl | hmem
          · exact hc_lt r hr hral
          · exact hall c2 hmem r hr hral
        · right
          refine ⟨c :: l1, c', l2, by simp [hcs], hrc, hal, hle, ?_, h2⟩
          intro c2 hc2 r hr hral
          rcases List.mem_cons.mp hc2 with rfl | hmem
          · exact le_of_lt (lt_of_lt_of_le (hc_lt r hr hral) hle)
          · exact h1 c2 hmem r hr hral

/-- With fuel above the rank of the start, the search returns. -/
theorem core_terminates (procs : List Proc) (al : Int → Bool) (rank : Int → Nat)
    (hrank : ∀ a c, IsChild procs a c → rank c < rank a) :
    ∀ (fuel : Nat) (x : Int), rank x < fuel → ∃ r, core (childrenOf procs) al fuel x = some r := by
  intro fuel
  induction fuel with
  | zero => intro x h; omega
  | succ fuel ih =>
    intro x hx
    simp only [core]
    split
    · exact ⟨_, rfl⟩
    · have hall : ∀ c ∈ childrenOf procs x, ∃ r, core (childrenOf procs) al fuel c = some r := by
        intro c hc
        have := hrank x c (mem_childrenOf.mp hc)
        exact ih c (by omega)
      obtain ⟨r, hr⟩ := coreLoop_isSome al (core (childrenOf procs) al fuel)
        (childrenOf procs x) x 0 hall
      exact ⟨_, by rw [hr]; rfl⟩

/-- The PID returned is the start itself or an allowed strict descendant of it. -/
theorem core_sound (procs : List Proc) (al : Int → Bool) :
    ∀ (fuel : Nat) (x p : Int) (d : Nat), core (childrenOf procs) al fuel x = some (p, d) →
      p = x ∨ (al p = true ∧ ∃ n, Reach procs x p (n + 1)) := by
  intro fuel
  induction fuel with
  | zero => intro x p d h; simp [core] at h
  | succ fuel ih =>
    intro x p d h
    simp only [core] at h
    split at h
    · simp only [Option.some.injEq, Prod.mk.injEq] at h
      exact Or.inl h.1.symm
    · cases hl : coreLoop al (core (childrenOf procs) al fuel) (childrenOf procs x) x 0 with
      | none => rw [hl] at h; simp at h
      | some r0 =>
        obtain ⟨p0, d0⟩ := r0
        rw [hl] at h
        simp only [Option.map_some', Option.some.injEq, Prod.mk.injEq] at h
        obtain ⟨rfl, rfl⟩ := h
        rcases coreLoop_spec _ _ _ _ _ _ _ hl with ⟨heq, _⟩ | ⟨l1, c, l2, hcs, hrc, hal, _, _, _⟩
        · simp only [Prod.mk.injEq] at heq
          exact Or.inl heq.1
        · right
          have hc : IsChild procs x c := mem_childrenOf.mp (by rw [hcs]; simp)
          refine ⟨hal, ?_⟩
          rcases ih c p0 d0 hrc with rfl | ⟨_, n, hn⟩
          · exact ⟨0, .down hc (.here _)⟩
          · exact ⟨n + 1, .down hc hn⟩

/-- When some strict descendant of the start is allowed, the PID returned is an
allowed strict descendant. -/
theorem core_complete (procs : List Proc) (al : Int → Bool) :
    ∀ (fuel : Nat) (x p : Int) (d : Nat), core (childrenOf procs) al fuel x = some (p, d) →
      (∃ y n, Reach procs x y (n + 1) ∧ al y = true) →
      al p = true ∧ ∃ n, Reach procs x p (n + 1) := by
  intro fuel
  induction fuel with
  | zero => intro x p d h; simp [core] at h
  | succ fuel ih =>
    intro x p d h hex
    obtain ⟨y, n, hy, haly⟩ := hex
    obtain ⟨c, hxc, hcy⟩ := hy.succ_inv
    have hcmem : c ∈ childrenOf procs x := mem_childrenOf.mpr hxc
    simp only [core] at h
    split at h
    · rename_i hnil
      rw [hnil] at hcmem
      simp at hcmem
    · cases hl : coreLoop al (core (childrenOf procs) al fuel) (childrenOf procs x) x 0 with
      | none => rw [hl] at h; simp at h
      | some r0 =>
        obtain ⟨p0, d0⟩ := r0
        rw [hl] at h
        simp only [Option.map_some', Option.some.injEq, Prod.mk.injEq] at h
        obtain ⟨rfl, rfl⟩ := h
        obtain ⟨⟨pc, dc⟩, hrc⟩ := coreLoop_defined _ _ _ _ _ _ hl c hcmem
        have hpc : al pc = true := by
          cases n with
          | zero =>
            have := hcy.zero_eq
            subst this
            rcases core_sound procs al fuel c pc dc hrc with rfl | ⟨hh, _⟩
            · exact haly
            · exact hh
          | succ m => exact (ih c pc dc hrc ⟨y, m, hcy, haly⟩).1
        rcases coreLoop_spec _ _ _ _ _ _ _ hl with ⟨_, hall⟩ | ⟨l1, c', l2, hcs, hrc', hal, _, _, _⟩
        · have := hall c hcmem (pc, dc) hrc hpc
          simp at this
        · have hc' : IsChild procs x c' := mem_childrenOf.mp (by rw [hcs]; simp)
          refine ⟨hal, ?_⟩
          rcases core_sound procs al fuel c' p0 d0 hrc' with rfl | ⟨_, m, hm⟩
          · exact ⟨0, .down hc' (.here _)⟩
          · exact ⟨m + 1, .down hc' hm⟩

/-! ## From the trace-free search to `findDeepestChild` on a well-formed snapshot -/

/-- The two indexes of a well-formed snapshot, in closed form. -/
theorem index_of_groupBy {procs : List Proc} {P I : ProcMap} (hwf : WellFormed procs)
    (hP : GroupBy procs ppidKey = .ok P) (hI : GroupBy procs pidKey = .ok I) :
    (fun k => (P k).map (fun p => p.PID)) = childrenOf procs ∧
      I = fun k => procs.filter (fun p => decide (p.PID = k)) := by
  rw [procsByPPID_eq procs (fun p hp => (hwf.resolvable p hp).1)] at hP
  rw [procsByPID_eq procs] at hI
  simp only [Except.ok.injEq] at hP hI
  subst hP
  subst hI
  exact ⟨rfl, rfl⟩

/-- With unique PIDs, the verdict read through the PID index is the verdict on the process. -/
theorem allowedIn_iff {procs : List Proc} (hnd : (procs.map (fun p => p.PID)).Nodup) (x : Int) :
    allowedIn (fun k => procs.filter (fun p => decide (p.PID = k))) x = true ↔ Allowed procs x := by
  constructor
  · intro h
    unfold allowedIn at h
    cases hf : procs.filter (fun p => decide (p.PID = x)) with
    | nil => simp [hf] at h
    | cons p ps =>
      have hmem : p ∈ procs.filter (fun p => decide (p.PID = x)) := by rw [hf]; simp
      rw [List.mem_filter] at hmem
      simp only [hf] at h
      refine ⟨p, hmem.1, by simpa using hmem.2, ?_⟩
      cases hp : isProcAllowed p with
      | ok b => rw [hp] at h; simp only at h; rw [h]
      | error e => rw [hp] at h; simp at h
  · rintro ⟨p, hp, rfl, hal⟩
    unfold allowedIn
    simp only [filter_pid_of_nodup hnd hp, hal]

/-- On a well-formed snapshot, with fuel above the number of records, the search from a
root of the snapshot returns, and returns what the trace-free search returns. -/
theorem search_runs {procs : List Proc} {P I : ProcMap} (hwf : WellFormed procs)
    (hP : GroupBy procs ppidKey = .ok P) (hI : GroupBy procs pidKey = .ok I)
    (root : Int) (hroot : root ∈ procs.map (fun p => p.PID))
    (fuel : Nat) (hfuel : procs.length < fuel) :
    (∀ x, allowedIn I x = true ↔ Allowed procs x) ∧
    ∃ p d, core (childrenOf procs) (allowedIn I) fuel root = some (p, d) ∧
      ∀ debug depth w, ∃ w', findDeepestChild debug P I fuel root depth w = .ok (p, d, w') := by
  obtain ⟨hkids, hIeq⟩ := index_of_groupBy hwf hP hI
  have hPeq : P = fun k => procs.filter (fun p =>
      match p.Stat with
      | .ok s => decide (s.PPID = k)
      | .error _ => false) := by
    rw [procsByPPID_eq procs (fun p hp => (hwf.resolvable p hp).1)] at hP
    simp only [Except.ok.injEq] at hP
    exact hP.symm
  refine ⟨fun x => by rw [hIeq]; exact allowedIn_iff hwf.uniquePIDs x, ?_⟩
  obtain ⟨rank, hrank, hbound⟩ := exists_rank hwf.acyclic
  obtain ⟨⟨p, d⟩, hcore⟩ := core_terminates procs (allowedIn I) rank hrank fuel root
    (lt_of_le_of_lt (hbound root) hfuel)
  refine ⟨p, d, hcore, fun debug depth w => ?_⟩
  have htr : ∀ x q rest, I x = q :: rest →
      (∃ e, q.Executable = .ok e) ∧ (∃ c, q.CmdLine = .ok c) ∧ (∃ d, q.Cwd = .ok d) := by
    intro x q rest hq
    have hmem : q ∈ I x := by rw [hq]; simp
    rw [hIeq] at hmem
    exact (hwf.resolvable q (List.mem_filter.mp hmem).1).2
  have hch : ∀ k, ∀ c ∈ P k, I c.PID ≠ [] := by
    intro k c hc
    rw [hPeq] at hc
    have hcp : c ∈ procs := (List.mem_filter.mp hc).1
    rw [hIeq]
    simp only [filter_pid_of_nodup hwf.uniquePIDs hcp]
    simp
  have hrootI : I root ≠ [] := by
    obtain ⟨q, hq, rfl⟩ := List.mem_map.mp hroot
    rw [hIeq]
    simp only [filter_pid_of_nodup hwf.uniquePIDs hq]
    simp
  have hcore' : core (fun k => (P k).map (fun p => p.PID)) (allowedIn I) fuel root = some (p, d) := by
    rw [hkids]; exact hcore
  exact (findDeepestChild_of_core debug P I htr hch fuel root hrootI (p, d) hcore').2 depth w

/-! ## The depth-first enumeration -/

theorem LastDeepest.le {l : List (Int × Nat)} {p : Int} {h : Nat} (hl : LastDeepest l p h) :
    ∀ e ∈ l, e.2 ≤ h := by
  obtain ⟨l1, l2, rfl, h1, h2⟩ := hl
  intro e he
  rcases List.mem_append.mp he with he | he
  · exact h1 e he
  · rcases List.mem_cons.mp he with rfl | he
    · exact le_refl _
    · exact le_of_lt (h2 e he)

/-- Every entry of the walk is a process reached from the start, at its distance. -/
theorem preorder_mem_reach (procs : List Proc) :
    ∀ (fuel : Nat) (x : Int) (k : Nat) (y : Int) (m : Nat),
      (y, m) ∈ preorder (childrenOf procs) fuel x k → ∃ n, Reach procs x y n ∧ m = k + n := by
  intro fuel
  induction fuel with
  | zero => intro x k y m h; simp [preorder] at h
  | succ fuel ih =>
    intro x k y m h
    simp only [preorder, List.mem_cons, Prod.mk.injEq, List.mem_flatten, List.mem_map] at h
    rcases h with ⟨rfl, rfl⟩ | ⟨l, ⟨c, hc, rfl⟩, hmem⟩
    · exact ⟨0, .here _, rfl⟩
    · obtain ⟨n, hn, rfl⟩ := ih c (k + 1) y m hmem
      exact ⟨n + 1, .down (mem_childrenOf.mp hc) hn, by omega⟩

/-- With fuel above the rank of the start, the walk lists every process reached from it. -/
theorem reach_mem_preorder (procs : List Proc) (rank : Int → Nat)
    (hrank : ∀ a c, IsChild procs a c → rank c < rank a) :
    ∀ (fuel : Nat) (x : Int) (k : Nat) (y : Int) (n : Nat), rank x < fuel →
      Reach procs x y n → (y, k + n) ∈ preorder (childrenOf procs) fuel x k := by
  intro fuel
  induction fuel with
  | zero => intro x k y n h; omega
  | succ fuel ih =>
    intro x k y n hx hr
    simp only [preorder, List.mem_cons, Prod.mk.injEq, List.mem_flatten, List.mem_map]
    cases hr with
    | here => exact Or.inl ⟨rfl, rfl⟩
    | @down _ b _ n hab hbc =>
      right
      have hb := hrank x b hab
      refine ⟨_, ⟨b, mem_childrenOf.mpr hab, rfl⟩, ?_⟩
      have := ih b (k + 1) y n (by omega) hbc
      rwa [show k + 1 + n = k + (n + 1) by omega] at this

/-- When every process under the start is allowed, the search returns the last
deepest entry of the depth-first enumeration, with its depth. -/
theorem core_lastDeepest (procs : List Proc) (al : Int → Bool) (rank : Int → Nat)
    (hrank : ∀ a c, IsChild procs a c → rank c < rank a) :
    ∀ (fuel : Nat) (x p : Int) (d : Nat), core (childrenOf procs) al fuel x = some (p, d) →
      (∀ y n, Reach procs x y n → al y = true) →
      ∀ (fuel' : Nat) (k : Nat), rank x < fuel' →
        LastDeepest (preorder (childrenOf procs) fuel' x k) p (k + d) := by
  intro fuel
  induction fuel with
  | zero => intro x p d h; simp [core] at h
  | succ fuel ih =>
    intro x p d h hall fuel' k hfuel'
    cases fuel' with
    | zero => omega
    | succ f' =>
      simp only [core] at h
      simp only [preorder]
      split at h
      · rename_i hnil
        simp only [Option.some.injEq, Prod.mk.injEq] at h
        obtain ⟨rfl, rfl⟩ := h
        rw [hnil]
        exact ⟨[], [], by simp, by simp, by simp⟩
      · rename_i hne
        cases hl : coreLoop al (core (childrenOf procs) al fuel) (childrenOf procs x) x 0 with
        | none => rw [hl] at h; simp at h
        | some r0 =>
          obtain ⟨p0, d0⟩ := r0
          rw [hl] at h
          simp only [Option.map_some', Option.some.injEq, Prod.mk.injEq] at h
          obtain ⟨rfl, rfl⟩ := h
          -- every child returns an allowed PID and the last deepest entry of its own walk
          have hchild : ∀ c ∈ childrenOf procs x, ∀ r,
              core (childrenOf procs) al fuel c = some r →
              al r.1 = true ∧ LastDeepest (preorder (childrenOf procs) f' c (k + 1)) r.1
                (k + 1 + r.2) := by
            intro c hc r hr
            have hxc : IsChild procs x c := mem_childrenOf.mp hc
            have hallc : ∀ y n, Reach procs c y n → al y = true :=
              fun y n hy => hall y (n + 1) (.down hxc hy)
            have hrk := hrank x c hxc
            refine ⟨?_, ih c r.1 r.2 hr hallc f' (k + 1) (by omega)⟩
            rcases core_sound procs al fuel c r.1 r.2 hr with he | ⟨ha, _⟩
            · rw [he]; exact hallc c 0 (.here c)
            · exact ha
          rcases coreLoop_spec _ _ _ _ _ _ _ hl with ⟨_, hnone⟩ | ⟨l1, c, l2, hcs, hrc, _, _, h1, h2⟩
          · exfalso
            cases hk : childrenOf procs x with
            | nil => exact hne hk
            | cons c cs =>
              have hc : c ∈ childrenOf procs x := by rw [hk]; simp
              obtain ⟨r, hr⟩ := coreLoop_defined _ _ _ _ _ _ hl c hc
              have := hnone c hc r hr (hchild c hc r hr).1
              omega
          · have hdef := coreLoop_defined _ _ _ _ _ _ hl
            have hcmem : c ∈ childrenOf procs x := by rw [hcs]; simp
            obtain ⟨a1, a2, ha, ha1, ha2⟩ := (hchild c hcmem (p0, d0) hrc).2
            simp only at ha ha1 ha2
            refine ⟨(x, k) :: ((l1.map (fun c => preorder (childrenOf procs) f' c (k + 1))).flatten
              ++ a1), a2 ++ (l2.map (fun c => preorder (childrenOf procs) f' c (k + 1))).flatten,
              ?_, ?_, ?_⟩
            · rw [hcs]
              simp only [List.map_append, List.map_cons, List.flatten_append, List.flatten_cons,
                ha, List.cons_append, List.append_assoc]
              rw [show k + (d0 + 1) = k + 1 + d0 by omega]
            · intro e he
              rcases List.mem_cons.mp he with rfl | he
              · simp only; omega
              · rcases List.mem_append.mp he with he | he
                · simp only [List.mem_flatten, List.mem_map] at he
                  obtain ⟨l, ⟨c', hc', rfl⟩, hmem⟩ := he
                  have hc'mem : c' ∈ childrenOf procs x := by rw [hcs]; simp [hc']
                  obtain ⟨r, hr⟩ := hdef c' hc'mem
                  obtain ⟨hal', hld'⟩ := hchild c' hc'mem r hr
                  have := hld'.le e hmem
                  have := h1 c' hc' r hr hal'
                  omega
                · have := ha1 e he
                  omega
            · intro e he
              rcases List.mem_append.mp he with he | he
              · have := ha2 e he
                omega
              · simp only [List.mem_flatten, List.mem_map] at he
                obtain ⟨l, ⟨c', hc', rfl⟩, hmem⟩ := he
                have hc'mem : c' ∈ childrenOf procs x := by rw [hcs]; simp [hc']
                obtain ⟨r, hr⟩ := hdef c' hc'mem
                obtain ⟨hal', hld'⟩ := hchild c' hc'mem r hr
                have := hld'.le e hmem
                have := h2 c' hc' r hr hal'
                omega

/-- A snapshot that passes `checkSnapshot` is well-formed. -/
theorem wellFormed_of_check {procs : List Proc} (h : checkSnapshot procs = true) :
    WellFormed procs := by
  unfold checkSnapshot at h
  simp only [Bool.and_eq_true, decide_eq_true_eq, List.all_eq_true] at h
  obtain ⟨hnd, hall⟩ := h
  refine ⟨hnd, ?_, acyclic_of_ppid_lt ?_⟩
  · intro p hp
    have := hall p hp
    split at this
    · rename_i s e c d hs he hc hd
      exact ⟨⟨_, hs⟩, ⟨_, he⟩, ⟨_, hc⟩, ⟨_, hd⟩⟩
    · simp at this
  · intro p hp s hs
    have := hall p hp
    split at this
    · rename_i s' e c d hs' he hc hd
      rw [hs] at hs'
      simp only [Except.ok.injEq] at hs'
      subst hs'
      simpa using this
    · simp at this

theorem byPPID_groupBy {procs : List Proc} (hwf : WellFormed procs) :
    GroupBy procs ppidKey = .ok (byPPID procs) :=
  procsByPPID_eq procs (fun p hp => (hwf.resolvable p hp).1)

theorem byPID_groupBy (procs : List Proc) : GroupBy procs pidKey = .ok (byPID procs) :=
  procsByPID_eq procs

/-- On a well-formed snapshot every path from `root` shows in the depth-first enumeration. -/
theorem reach_mem_dfsOrder {procs : List Proc} (hwf : WellFormed procs) {root y : Int} {n : Nat}
    (h : Reach procs root y n) : (y, n) ∈ dfsOrder procs root := by
  obtain ⟨rank, hrank, hbound⟩ := exists_rank hwf.acyclic
  have := reach_mem_preorder procs rank hrank (procs.length + 1) root 0 y n
    (Nat.lt_succ_of_le (hbound root)) h
  simpa [dfsOrder] using this

theorem mem_dfsOrder_reach {procs : List Proc} {root y : Int} {n : Nat}
    (h : (y, n) ∈ dfsOrder procs root) : Reach procs root y n := by
  obtain ⟨m, hm, rfl⟩ := preorder_mem_reach procs _ root 0 y n h
  simpa using hm

/-- With unique PIDs, a denylisted process is not allowed. -/
theorem not_allowed_of_denylisted {procs : List Proc}
    (hnd : (procs.map (fun p => p.PID)).Nodup) {x : Int}
    (hd : Denylisted procs x) : ¬ Allowed procs x := by
  rintro ⟨p, hp, rfl, hpa⟩
  obtain ⟨q, hq, hqp, hqd⟩ := hd
  have h1 := filter_pid_of_nodup hnd hp
  have h2 := filter_pid_of_nodup hnd hq
  rw [hqp] at h2
  rw [h1] at h2
  simp only [List.cons.injEq, and_true] at h2
  subst h2
  rw [hpa] at hqd
  simp at hqd

/-- The head of the filtered list is the first item that passes the filter. -/
theorem head?_filter_eq_find? (f : Proc → Bool) (procs : List Proc) :
    (procs.filter f).head? = procs.find? f := by
  induction procs with
  | nil => rfl
  | cons q rest ih =>
    cases hq : f q with
    | true => simp [List.filter_cons, List.find?_cons, hq]
    | false => simp [List.filter_cons, List.find?_cons, hq, ih]

/-- The base case of `findDeepestChild`: once the trace arguments of the visited record
are evaluated, a process without children is returned at depth `0`, with no test of
`isProcAllowed` on it. -/
theorem findDeepestChild_base_case (debug : Bool) (P I : ProcMap) (root : Int)
    (fuel depth : Nat) (w : Stderr) (p : Proc) (rest : List Proc)
    (e : String) (cl : List String) (cwd : String)
    (hpresent : I root = p :: rest) (hleaf : P root = [])
    (he : p.Executable = .ok e) (hc : p.CmdLine = .ok cl) (hd : p.Cwd = .ok cwd) :
    ∃ w', findDeepestChild debug P I (fuel + 1) root depth w = .ok (root, 0, w') := by
  simp [findDeepestChild, hpresent, index0, bind, Except.bind, isProcAllowed_ok he, he, hc, hd,
    must, hleaf, pure, Except.pure]

/-! ## Facts about the example snapshots -/

theorem onUniqueDeepestPath_snapMiddle : OnUniqueDeepestPath snapMiddle 1 2 := by
  have hwf : WellFormed snapMiddle := wellFormed_of_check (by decide)
  refine ⟨4, 2, mem_dfsOrder_reach (by decide), ?_, 0, 1, ?_, ?_⟩
  · intro y n hy
    have hmem := reach_mem_dfsOrder hwf hy
    have hd : dfsOrder snapMiddle 1 = [(1, 0), (2, 1), (4, 2)] := by rfl
    rw [hd] at hmem
    simp only [List.mem_cons, Prod.mk.injEq, List.mem_nil_iff, or_false] at hmem
    omega
  · exact mem_dfsOrder_reach (by decide)
  · exact mem_dfsOrder_reach (by decide)

theorem denylisted_snapMiddle : Denylisted snapMiddle 2 :=
  ⟨mkProc 2 1 "/usr/bin/gopls", by simp [snapMiddle], rfl, rfl⟩

/-! ## The claims -/

/-- Claim C1, evaluated at a failing input. On the well-formed snapshot
`1 → {2, 3}`, `2 → {4}`, `3 → {5}` with only `5` denylisted, `findDeepestChild` on root `1`
returns PID `3` with depth `2`. Process `3` is one edge below the root, while process `4`
is allowed and two edges below the root: the PID returned is not an allowed descendant
of greatest distance. -/
theorem findDeepestChild_shadowed_eval :
    WellFormed snapShadow ∧
    GroupBy snapShadow ppidKey = .ok (byPPID snapShadow) ∧
    GroupBy snapShadow pidKey = .ok (byPID snapShadow) ∧
    findDeepestChild false (byPPID snapShadow) (byPID snapShadow) 6 1 0 [] = .ok (3, 2, []) ∧
    (∀ n, Reach snapShadow 1 3 n → n = 1) ∧
    Allowed snapShadow 4 ∧ Reach snapShadow 1 4 2 := by
  have hwf : WellFormed snapShadow := wellFormed_of_check (by decide)
  refine ⟨hwf, byPPID_groupBy hwf, byPID_groupBy _, rfl, ?_, ?_, ?_⟩
  · intro n hn
    have hmem := reach_mem_dfsOrder hwf hn
    have hd : dfsOrder snapShadow 1 = [(1, 0), (2, 1), (4, 2), (3, 1), (5, 2)] := by rfl
    rw [hd] at hmem
    simp only [List.mem_cons, Prod.mk.injEq, List.mem_nil_iff, or_false] at hmem
    omega
  · exact ⟨mkProc 4 2 "/usr/bin/vim", by simp [snapShadow], rfl, rfl⟩
  · exact mem_dfsOrder_reach (by decide)

/-- Claim C2. On a well-formed snapshot whose indexes are built by `lo.GroupBy`, if
every process reachable from the root is allowed, then `findDeepestChild` on the root,
given fuel above the number of records, returns a pair `(pid, h)` where `pid` lies `h`
edges below the root, no process lies farther below the root than `h` (so `h` is the
height of the tree), `pid` has no children, and `(pid, h)` is the last entry of greatest
depth in the depth-first enumeration of the tree. -/
theorem findDeepestChild_all_allowed (debug : Bool) (procs : List Proc) (P I : ProcMap)
    (root : Int) (fuel depth : Nat) (w : Stderr)
    (hwf : WellFormed procs)
    (hP : GroupBy procs ppidKey = .ok P) (hI : GroupBy procs pidKey = .ok I)
    (hroot : root ∈ procs.map (fun p => p.PID)) (hfuel : procs.length < fuel)
    (hall : ∀ y n, Reach procs root y n → Allowed procs y) :
    ∃ pid h w', findDeepestChild debug P I fuel root depth w = .ok (pid, h, w') ∧
      Reach procs root pid h ∧
      (∀ y n, Reach procs root y n → n ≤ h) ∧
      childrenOf procs pid = [] ∧
      LastDeepest (dfsOrder procs root) pid h := by
  obtain ⟨hal, p, d, hcore, hrun⟩ := search_runs hwf hP hI root hroot fuel hfuel
  obtain ⟨w', hw'⟩ := hrun debug depth w
  obtain ⟨rank, hrank, hbound⟩ := exists_rank hwf.acyclic
  have hld : LastDeepest (dfsOrder procs root) p d := by
    have := core_lastDeepest procs (allowedIn I) rank hrank fuel root p d hcore
      (fun y n hy => (hal y).mpr (hall y n hy)) (procs.length + 1) 0
      (Nat.lt_succ_of_le (hbound root))
    simpa [dfsOrder] using this
  have hreach : Reach procs root p d := by
    obtain ⟨l1, l2, hl, _, _⟩ := hld
    exact mem_dfsOrder_reach (by rw [hl]; simp)
  have hmax : ∀ y n, Reach procs root y n → n ≤ d :=
    fun y n hy => hld.le (y, n) (reach_mem_dfsOrder hwf hy)
  refine ⟨p, d, w', hw', hreach, hmax, ?_, hld⟩
  cases hk : childrenOf procs p with
  | nil => rfl
  | cons c cs =>
    exfalso
    have hc : IsChild procs p c := mem_childrenOf.mp (by rw [hk]; simp)
    have := hmax c (d + 1) (hreach.snoc hc)
    omega

/-- Witness for C2: the tree `1 → {2, 3}`, `2 → {4}`, `3 → {}`, where the search
returns `(4, 2)`. -/
theorem findDeepestChild_all_allowed_witness :
    findDeepestChild false (byPPID snapTree) (byPID snapTree) 5 1 0 [] = .ok (4, 2, []) ∧
    ∃ pid h w', findDeepestChild false (byPPID snapTree) (byPID snapTree) 5 1 0 [] =
        .ok (pid, h, w') ∧
      Reach snapTree 1 pid h ∧
      (∀ y n, Reach snapTree 1 y n → n ≤ h) ∧
      childrenOf snapTree pid = [] ∧
      LastDeepest (dfsOrder snapTree 1) pid h :=
  ⟨rfl, findDeepestChild_all_allowed false snapTree (byPPID snapTree) (byPID snapTree) 1 5 0 []
    (wellFormed_of_check (by decide)) (byPPID_groupBy (wellFormed_of_check (by decide)))
    (byPID_groupBy snapTree) (by decide) (by decide)
    (by
      intro y n hy
      have hmem := reach_mem_dfsOrder (wellFormed_of_check (by decide)) hy
      have hd : dfsOrder snapTree 1 = [(1, 0), (2, 1), (4, 2), (3, 1)] := by rfl
      rw [hd] at hmem
      simp only [List.mem_cons, Prod.mk.injEq, List.mem_nil_iff, or_false] at hmem
      rcases hmem with ⟨rfl, _⟩ | ⟨rfl, _⟩ | ⟨rfl, _⟩ | ⟨rfl, _⟩
      · exact ⟨_, List.mem_cons_self _ _, rfl, rfl⟩
      · exact ⟨_, List.mem_cons_of_mem _ (List.mem_cons_self _ _), rfl, rfl⟩
      · exact ⟨mkProc 4 2 "/usr/bin/vim", by simp [snapTree], rfl, rfl⟩
      · exact ⟨mkProc 3 1 "/bin/zsh", by simp [snapTree], rfl, rfl⟩)⟩

/-- Claim C3, evaluated at a failing input. On the well-formed snapshot `1 → 2` with `2`
denylisted, `findDeepestChild` on root `1` returns PID `1` with depth `1`, although
the path from the root to the returned PID has no edge. -/
theorem findDeepestChild_depth_eval :
    WellFormed snapOnlyGopls ∧
    GroupBy snapOnlyGopls ppidKey = .ok (byPPID snapOnlyGopls) ∧
    GroupBy snapOnlyGopls pidKey = .ok (byPID snapOnlyGopls) ∧
    findDeepestChild false (byPPID snapOnlyGopls) (byPID snapOnlyGopls) 3 1 0 [] =
      .ok (1, 1, []) ∧
    (∀ n, Reach snapOnlyGopls 1 1 n → n = 0) := by
  have hwf : WellFormed snapOnlyGopls := wellFormed_of_check (by decide)
  exact ⟨hwf, byPPID_groupBy hwf, byPID_groupBy _, rfl, fun n hn => hwf.acyclic 1 n hn⟩

/-- Counterexample to C4 as stated. On the well-formed chain `1 → 2 → 4` with `2`
denylisted, node `2` lies on the unique deepest path, and `findDeepestChild` on root `1`
returns PID `4`, a strict descendant of `2`. -/
theorem findDeepestChild_descendant_of_denylisted :
    WellFormed snapMiddle ∧
    GroupBy snapMiddle ppidKey = .ok (byPPID snapMiddle) ∧
    GroupBy snapMiddle pidKey = .ok (byPID snapMiddle) ∧
    OnUniqueDeepestPath snapMiddle 1 2 ∧ Denylisted snapMiddle 2 ∧
    findDeepestChild false (byPPID snapMiddle) (byPID snapMiddle) 4 1 0 [] = .ok (4, 2, []) ∧
    Reach snapMiddle 2 4 1 := by
  have hwf : WellFormed snapMiddle := wellFormed_of_check (by decide)
  exact ⟨hwf, byPPID_groupBy hwf, byPID_groupBy _, onUniqueDeepestPath_snapMiddle,
    denylisted_snapMiddle, rfl, mem_dfsOrder_reach (by decide)⟩

/-- Claim C4, amended. On a well-formed snapshot whose indexes are built by `lo.GroupBy`,
if a denylisted node `d` other than the root lies on the unique deepest path below the
root, then `findDeepestChild` on the root, given fuel above the number of records,
returns a PID different from `d`. -/
theorem findDeepestChild_not_denylisted_node (debug : Bool) (procs : List Proc) (P I : ProcMap)
    (root d : Int) (fuel depth : Nat) (w : Stderr)
    (hwf : WellFormed procs)
    (hP : GroupBy procs ppidKey = .ok P) (hI : GroupBy procs pidKey = .ok I)
    (hroot : root ∈ procs.map (fun p => p.PID)) (hfuel : procs.length < fuel)
    (hpath : OnUniqueDeepestPath procs root d) (hden : Denylisted procs d) :
    ∃ pid dep w', findDeepestChild debug P I fuel root depth w = .ok (pid, dep, w') ∧
      pid ≠ d := by
  obtain ⟨hal, p, dep, hcore, hrun⟩ := search_runs hwf hP hI root hroot fuel hfuel
  obtain ⟨w', hw'⟩ := hrun debug depth w
  refine ⟨p, dep, w', hw', fun hpd => ?_⟩
  obtain ⟨leaf, h, _, _, j, k, hrd, _⟩ := hpath
  rcases core_sound procs (allowedIn I) fuel root p dep hcore with hpr | ⟨ha, _⟩
  · rw [hpd] at hpr
    rw [hpr] at hrd
    have := hwf.acyclic root (j + 1) hrd
    omega
  · rw [hpd] at ha
    exact not_allowed_of_denylisted hwf.uniquePIDs hden ((hal d).mp ha)

/-- Witness for the amended C4: the chain `1 → 2 → 4` with `2` denylisted. -/
theorem findDeepestChild_not_denylisted_node_witness :
    ∃ pid dep w', findDeepestChild false (byPPID snapMiddle) (byPID snapMiddle) 4 1 0 [] =
        .ok (pid, dep, w') ∧ pid ≠ 2 :=
  findDeepestChild_not_denylisted_node false snapMiddle (byPPID snapMiddle) (byPID snapMiddle)
    1 2 4 0 [] (wellFormed_of_check (by decide))
    (byPPID_groupBy (wellFormed_of_check (by decide))) (byPID_groupBy snapMiddle)
    (by decide) (by decide) onUniqueDeepestPath_snapMiddle denylisted_snapMiddle

/-- Claim C5, evaluated at a failing input. Process `9` is present in the PID index and has
no entry in the parent-PID index, but its working directory cannot be read; with `DEBUG`
unset `findDeepestChild` on `9` panics with that error and returns no pair. On a lone
process `9` whose queries all resolve, and which is denylisted, it returns `(9, 0)`. -/
theorem childless_root_unread_cwd_panics :
    GroupBy snapLone ppidKey = .ok (byPPID snapLone) ∧
    GroupBy snapLone pidKey = .ok (byPID snapLone) ∧
    (byPID snapLone 9).length = 1 ∧ byPPID snapLone 9 = [] ∧
    findDeepestChild false (byPPID snapLone) (byPID snapLone) 2 9 0 [] =
      .error (.panicErr "readlink /proc/9/cwd: permission denied") ∧
    isProcAllowed (mkProc 9 1 "/usr/bin/gopls") = .ok false ∧
    findDeepestChild false (byPPID snapLoneGopls) (byPID snapLoneGopls) 2 9 0 [] =
      .ok (9, 0, []) := by
  refine ⟨procsByPPID_eq snapLone ?_, byPID_groupBy _, rfl, rfl, rfl, rfl, rfl⟩
  intro p hp
  simp only [snapLone, List.mem_singleton] at hp
  subst hp
  exact ⟨_, rfl⟩

/-- Claim C6. For every root PID absent from the PID index, `findDeepestChild` with any
positive fuel fails with the index-out-of-range panic of `procsByPID[pid][0]` and
returns no pair. -/
theorem findDeepestChild_absent_root (debug : Bool) (P I : ProcMap) (pid : Int)
    (fuel depth : Nat) (w : Stderr) (habsent : I pid = []) :
    findDeepestChild debug P I (fuel + 1) pid depth w = .error (.indexOutOfRange 0 0) := by
  simp [findDeepestChild, habsent, index0, bind, Except.bind]

/-- Witness for C6: PID `42` is not in the snapshot `1 → {2, 3}`, `2 → {4}`. -/
theorem findDeepestChild_absent_root_witness :
    byPID snapTree 42 = [] ∧
    findDeepestChild false (byPPID snapTree) (byPID snapTree) (4 + 1) 42 0 [] =
      .error (.indexOutOfRange 0 0) :=
  ⟨rfl, findDeepestChild_absent_root false (byPPID snapTree) (byPID snapTree) 42 4 0 [] rfl⟩

/-- Counterexample to C7 as stated. For a process whose executable path cannot be
read, `isProcAllowed` panics with the error and does not return `false`. -/
theorem unresolved_executable_panics :
    isProcAllowed procNoExe = .error (.panicErr "readlink /proc/3/exe: permission denied") ∧
    isProcAllowed procNoExe ≠ .ok false := by
  refine ⟨rfl, ?_⟩
  intro h
  have h2 : isProcAllowed procNoExe =
      .error (.panicErr "readlink /proc/3/exe: permission denied") := rfl
  rw [h2] at h
  cases h

/-- Claim C7, amended. For every process whose executable-path resolution returns an
error, `isProcAllowed` fails: `must` panics with that error. A process whose executable
path resolves to the empty string gets `false`, its basename "." being denylisted. -/
theorem isProcAllowed_unresolved (p : Proc) :
    (∀ e, p.Executable = .error e → isProcAllowed p = .error (.panicErr e)) ∧
      (p.Executable = .ok "" → isProcAllowed p = .ok false) := by
  constructor
  · intro e h
    simp [isProcAllowed, h, must, bind, Except.bind]
  · intro h
    rw [isProcAllowed_ok h]
    rfl

/-- Witness for the amended C7: an unreadable executable path and an empty one. -/
theorem isProcAllowed_unresolved_witness :
    isProcAllowed procNoExe = .error (.panicErr "readlink /proc/3/exe: permission denied") ∧
    isProcAllowed procEmptyExe = .ok false :=
  ⟨(isProcAllowed_unresolved procNoExe).1 _ rfl, (isProcAllowed_unresolved procEmptyExe).2 rfl⟩

/-- Claim C8, evaluated at a failing input. On the chain `1 → 2` with `DEBUG` unset, when
the working directory of the non-root process `2` cannot be read, `findDeepestChild`
on root `1` panics with that error; on the same chain with the working directory
readable it returns `(2, 1)`. -/
theorem findDeepestChild_unread_cwd_eval :
    GroupBy snapNoCwd ppidKey = .ok (byPPID snapNoCwd) ∧
    GroupBy snapNoCwd pidKey = .ok (byPID snapNoCwd) ∧
    findDeepestChild false (byPPID snapNoCwd) (byPID snapNoCwd) 3 1 0 [] =
      .error (.panicErr "readlink /proc/2/cwd: permission denied") ∧
    GroupBy snapCwd ppidKey = .ok (byPPID snapCwd) ∧
    GroupBy snapCwd pidKey = .ok (byPID snapCwd) ∧
    findDeepestChild false (byPPID snapCwd) (byPID snapCwd) 3 1 0 [] = .ok (2, 1, []) := by
  refine ⟨procsByPPID_eq snapNoCwd ?_, byPID_groupBy _, rfl,
    byPPID_groupBy (wellFormed_of_check (by decide)), byPID_groupBy _, rfl⟩
  intro p hp
  simp only [snapNoCwd, List.mem_cons, List.mem_singleton, List.mem_nil_iff, or_false] at hp
  rcases hp with rfl | rfl
  · exact ⟨_, rfl⟩
  · exact ⟨_, rfl⟩

/-- Counterexample to C9 as stated. In a snapshot listing PID `7` twice, the record
that `procsByPID[7][0]` yields has the working directory of the first record, while the
last record with PID `7` has another one. -/
theorem procsByPID_not_last :
    GroupBy snapDup pidKey = .ok (byPID snapDup) ∧
    (index0 (byPID snapDup 7)).map (fun p => p.Cwd) = .ok (.ok "/first") ∧
    ((snapDup.filter (fun q => decide (q.PID = 7))).getLast?).map (fun p => p.Cwd) =
      some (.ok "/last") :=
  ⟨byPID_groupBy _, rfl, rfl⟩

/-- Claim C9, amended. The record that the PID lookup `procsByPID[pid][0]` uses, over the
index built by `lo.GroupBy`, is the first record with that PID in snapshot enumeration
order. -/
theorem procsByPID_first (procs : List Proc) (I : ProcMap) (pid : Int) (p : Proc)
    (hI : GroupBy procs pidKey = .ok I)
    (hfirst : procs.find? (fun q => decide (q.PID = pid)) = some p) :
    index0 (I pid) = .ok p := by
  rw [procsByPID_eq procs] at hI
  simp only [Except.ok.injEq] at hI
  subst hI
  simp only
  have : (procs.filter (fun q => decide (q.PID = pid))).head? = some p := by
    rw [head?_filter_eq_find?]; exact hfirst
  cases hf : procs.filter (fun q => decide (q.PID = pid)) with
  | nil => rw [hf] at this; simp at this
  | cons a as =>
    rw [hf] at this
    simp only [List.head?_cons, Option.some.injEq] at this
    subst this
    rfl

/-- Witness for the amended C9: the snapshot listing PID `7` twice. -/
theorem procsByPID_first_witness :
    snapDup.find? (fun q => decide (q.PID = 7)) = some dupFirst ∧
    index0 (byPID snapDup 7) = .ok dupFirst :=
  ⟨rfl, procsByPID_first snapDup (byPID snapDup) 7 dupFirst (byPID_groupBy _) rfl⟩

/-- Claim C10. On a well-formed snapshot whose indexes are built by `lo.GroupBy`,
`findDeepestChild` on a root of the snapshot, given fuel above the number of records,
returns the root's own PID exactly when no strict descendant of the root is allowed;
otherwise the PID returned is an allowed strict descendant of the root. -/
theorem findDeepestChild_returns_root_iff (debug : Bool) (procs : List Proc) (P I : ProcMap)
    (root : Int) (fuel depth : Nat) (w : Stderr)
    (hwf : WellFormed procs)
    (hP : GroupBy procs ppidKey = .ok P) (hI : GroupBy procs pidKey = .ok I)
    (hroot : root ∈ procs.map (fun p => p.PID)) (hfuel : procs.length < fuel) :
    ∃ pid d w', findDeepestChild debug P I fuel root depth w = .ok (pid, d, w') ∧
      (pid = root ↔ ¬ ∃ y n, Reach procs root y (n + 1) ∧ Allowed procs y) ∧
      (pid ≠ root → (∃ n, Reach procs root pid (n + 1)) ∧ Allowed procs pid) := by
  obtain ⟨hal, p, d, hcore, hrun⟩ := search_runs hwf hP hI root hroot fuel hfuel
  obtain ⟨w', hw'⟩ := hrun debug depth w
  refine ⟨p, d, w', hw', ⟨fun hpr hex => ?_, fun hno => ?_⟩, fun hne => ?_⟩
  · obtain ⟨y, n, hy, hya⟩ := hex
    obtain ⟨_, m, hm⟩ := core_complete procs (allowedIn I) fuel root p d hcore
      ⟨y, n, hy, (hal y).mpr hya⟩
    rw [hpr] at hm
    have := hwf.acyclic root (m + 1) hm
    omega
  · rcases core_sound procs (allowedIn I) fuel root p d hcore with h | ⟨ha, n, hn⟩
    · exact h
    · exact absurd ⟨p, n, hn, (hal p).mp ha⟩ hno
  · rcases core_sound procs (allowedIn I) fuel root p d hcore with h | ⟨ha, n, hn⟩
    · exact absurd h hne
    · exact ⟨⟨n, hn⟩, (hal p).mp ha⟩

/-- Witness for C10: on the snapshot `1 → {2, 3}`, `2 → {4}`, `3 → {5}` with `5`
denylisted, the search returns `3`, an allowed strict descendant of the root. -/
theorem findDeepestChild_returns_root_iff_witness :
    ∃ pid d w', findDeepestChild true (byPPID snapShadow) (byPID snapShadow) 6 1 0 [] =
        .ok (pid, d, w') ∧
      (pid = 1 ↔ ¬ ∃ y n, Reach snapShadow 1 y (n + 1) ∧ Allowed snapShadow y) ∧
      (pid ≠ 1 → (∃ n, Reach snapShadow 1 pid (n + 1)) ∧ Allowed snapShadow pid) :=
  findDeepestChild_returns_root_iff true snapShadow (byPPID snapShadow)
    (byPID snapShadow) 1 6 0 [] (wellFormed_of_check (by decide))
    (byPPID_groupBy (wellFormed_of_check (by decide))) (byPID_groupBy snapShadow)
    (by decide) (by decide)

end Goxcwd
